import Mathlib

/-!
Verification of the context-engine pipeline stages of lobe-chat:
the RAG context injector (`RAGContextInjector.ts`) and the placeholder
variable injector (`PlaceholderVariableInjector.ts`).

JavaScript strings are modelled as `List Char` (`s.length` becomes
`List.length`, `s.substring(0, n)` becomes `List.take n`), similarity
scores (JS numbers) as rationals, message rows and pipeline contexts as
structures.  Fallible operations return `Except`/`Option`.
-/

/-- A retrieved document chunk (`RetrievalChunk` of `types.ts`),
restricted to the fields the providers read. -/
structure RetrievalChunk where
  content : List Char
  similarity : ℚ
  deriving DecidableEq

/-- Configuration of the RAG injector (`RAGContextConfig`). -/
structure RAGContextConfig where
  chunks : List RetrievalChunk
  rewriteQuery : Option (List Char) := none
  queryId : Option (List Char) := none
  maxContextLength : Option Nat := none
  minSimilarity : Option ℚ := none
  sortBySimilarity : Option Bool := none
  deriving DecidableEq

/-- A conversation message (the fields the providers read). -/
structure ChatMessage where
  id : Nat
  role : String
  content : List Char
  deriving DecidableEq

/-- The `metadata.ragContext` entry written by the RAG injector.
`Math.min` / `Math.max` / the average are partial on an empty sequence;
they are modelled as `Option`-valued (`none` is the empty-sequence error
value, which claim C9 shows is never produced). -/
structure RAGMetadataEntry where
  chunksCount : Nat
  totalContextLength : Nat
  queryId : Option (List Char)
  rewriteQuery : Option (List Char)
  minSimilarity : Option ℚ
  maxSimilarity : Option ℚ
  avgSimilarity : Option ℚ
  deriving DecidableEq

/-- The open `metadata` map of `PipelineContext`, restricted to the keys
the two providers touch.  `none` models an absent key. -/
structure ContextMetadata where
  ragContext : Option RAGMetadataEntry := none
  placeholdersProcessed : Option Nat := none
  placeholderErrors : Option Nat := none
  availableVariables : Option (List (List Char)) := none
  deriving DecidableEq

/-- The pipeline context: ordered messages plus metadata.  `executed` is
the flag written by `markAsExecuted`. -/
structure PipelineContext where
  messages : List ChatMessage
  metadata : ContextMetadata
  executed : Bool := false
  deriving DecidableEq

/-- Modelled from the spec: `BaseProvider.cloneContext` (not under `src/`)
deep-clones the incoming context so that the stage mutates only the copy.
On pure values a deep clone is the identity. -/
def cloneContext (context : PipelineContext) : PipelineContext := context

/-- Modelled from the spec: `BaseProvider.markAsExecuted` (not under
`src/`) marks the returned context as executed, an idempotent flag write. -/
def markAsExecuted (context : PipelineContext) : PipelineContext :=
  { context with executed := true }

/-- Insertion step of the stable descending sort by similarity: the new
element goes in front of the first element whose similarity is ≤ its own,
i.e. a tie keeps the earlier element first. -/
def insertBySimilarityDesc (a : RetrievalChunk) : List RetrievalChunk → List RetrievalChunk
  | [] => [a]
  | b :: rest =>
    if b.similarity ≤ a.similarity then a :: b :: rest
    else b :: insertBySimilarityDesc a rest

/-- Model of `processedChunks.sort((a, b) => b.similarity - a.similarity)`.
ECMAScript `Array.prototype.sort` is stable, and a stable sort for a total
preorder has a unique result; it is realised here as a stable insertion
sort. -/
def sortBySimilarityDesc : List RetrievalChunk → List RetrievalChunk
  | [] => []
  | a :: rest => insertBySimilarityDesc a (sortBySimilarityDesc rest)

/-- The ellipsis appended to a truncated chunk (`'...'`). -/
def ellipsis : List Char := ['.', '.', '.']

/-- The loop body of `truncateByLength`, with the running total as an
explicit accumulator.  Mirrors the source: keep a chunk whole while it
fits, otherwise truncate it to the remaining budget when more than 100
characters remain, and in either case stop. -/
def truncGo (maxLength : Nat) : List RetrievalChunk → Nat → List RetrievalChunk
  | [], _ => []
  | chunk :: rest, totalLength =>
    if totalLength + chunk.content.length ≤ maxLength then
      chunk :: truncGo maxLength rest (totalLength + chunk.content.length)
    else if 100 < maxLength - totalLength then
      [{ chunk with content := chunk.content.take (maxLength - totalLength) ++ ellipsis }]
    else []

/-- `truncateByLength(chunks, maxLength)` of `RAGContextInjector.ts`. -/
def truncateByLength (chunks : List RetrievalChunk) (maxLength : Nat) : List RetrievalChunk :=
  truncGo maxLength chunks 0

/-- The similarity filter of `processRetrievalChunks`: when
`minSimilarity` is configured, keep the chunks with
`chunk.similarity >= minSimilarity`. -/
def filterBySimilarity (minSim : Option ℚ) (chunks : List RetrievalChunk) : List RetrievalChunk :=
  match minSim with
  | some ms => chunks.filter (fun chunk => decide (ms ≤ chunk.similarity))
  | none => chunks

/-- The length-limiting step of `processRetrievalChunks`.  The source
guard is `if (this.config.maxContextLength)`, JavaScript truthiness: the
value `0` (like an absent value) disables truncation. -/
def lengthLimit (cfg : RAGContextConfig) (chunks : List RetrievalChunk) : List RetrievalChunk :=
  match cfg.maxContextLength with
  | some maxLen => if maxLen = 0 then chunks else truncateByLength chunks maxLen
  | none => chunks

/-- `processRetrievalChunks` of `RAGContextInjector.ts`: filter by
similarity, then sort descending unless `sortBySimilarity === false`,
then limit the total length. -/
def processRetrievalChunks (cfg : RAGContextConfig) (chunks : List RetrievalChunk) : List RetrievalChunk :=
  let afterFilter := filterBySimilarity cfg.minSimilarity chunks
  let afterSort :=
    if cfg.sortBySimilarity = some false then afterFilter
    else sortBySimilarityDesc afterFilter
  lengthLimit cfg afterSort

/-- Total content length of a chunk list. -/
def sumLen (chunks : List RetrievalChunk) : Nat :=
  (chunks.map (fun c => c.content.length)).sum

@[simp] lemma sumLen_nil : sumLen [] = 0 := rfl

@[simp] lemma sumLen_cons (c : RetrievalChunk) (l : List RetrievalChunk) :
    sumLen (c :: l) = c.content.length + sumLen l := by
  simp [sumLen]

/-- Budget bound for the truncation loop: starting from a running total
within budget, the final total exceeds `maxLength` by at most the length
of the appended ellipsis (3 characters). -/
lemma truncGo_sum_le (maxLength : Nat) :
    ∀ (chunks : List RetrievalChunk) (t : Nat), t ≤ maxLength →
      t + sumLen (truncGo maxLength chunks t) ≤ maxLength + 3 := by
  intro chunks
  induction chunks with
  | nil => intro t ht; simp [truncGo]; omega
  | cons chunk rest ih =>
    intro t ht
    by_cases hfit : t + chunk.content.length ≤ maxLength
    · have h := ih (t + chunk.content.length) hfit
      simp only [truncGo, if_pos hfit, sumLen_cons]
      omega
    · by_cases hrem : 100 < maxLength - t
      · simp only [truncGo, if_neg hfit, if_pos hrem, sumLen_cons, sumLen_nil,
          List.length_append, List.length_take]
        have h1 : min (maxLength - t) chunk.content.length ≤ maxLength - t :=
          Nat.min_le_left _ _
        have h2 : ellipsis.length = 3 := rfl
        omega
      · simp only [truncGo, if_neg hfit, if_neg hrem, sumLen_nil]
        omega

/-- Structural characterisation of the truncation loop: the result is a
prefix of the input, possibly followed by a single truncated copy of the
first chunk that did not fit whole; later chunks are never considered.
In the truncated case more than 100 characters of budget remained and the
chunk was strictly longer than that remainder. -/
lemma truncGo_chars (maxLength : Nat) :
    ∀ (chunks : List RetrievalChunk) (t : Nat),
      (∃ k, k ≤ chunks.length ∧ truncGo maxLength chunks t = chunks.take k) ∨
      (∃ k chunk, chunks.get? k = some chunk ∧
        100 < maxLength - (t + sumLen (chunks.take k)) ∧
        maxLength - (t + sumLen (chunks.take k)) < chunk.content.length ∧
        truncGo maxLength chunks t =
          chunks.take k ++
            [{ chunk with
                content := chunk.content.take (maxLength - (t + sumLen (chunks.take k))) ++ ellipsis }]) := by
  intro chunks
  induction chunks with
  | nil =>
    intro t
    exact Or.inl ⟨0, Nat.le_refl 0, rfl⟩
  | cons chunk rest ih =>
    intro t
    by_cases hfit : t + chunk.content.length ≤ maxLength
    · rcases ih (t + chunk.content.length) with ⟨k, hk, heq⟩ | ⟨k, c, hget, h1, h2, heq⟩
      · refine Or.inl ⟨k + 1, by simpa using Nat.succ_le_succ hk, ?_⟩
        simp only [truncGo, if_pos hfit, List.take_succ_cons, heq]
      · refine Or.inr ⟨k + 1, c, by simpa using hget, ?_, ?_, ?_⟩
        · simpa [List.take_succ_cons, sumLen_cons, Nat.add_assoc] using h1
        · simpa [List.take_succ_cons, sumLen_cons, Nat.add_assoc] using h2
        · simp only [truncGo, if_pos hfit, List.take_succ_cons, heq, List.cons_append,
            sumLen_cons, Nat.add_assoc]
    · by_cases hrem : 100 < maxLength - t
      · refine Or.inr ⟨0, chunk, rfl, by simpa using hrem, by simp; omega, ?_⟩
        simp only [truncGo, if_neg hfit, if_pos hrem, List.take_zero, List.nil_append,
          sumLen_nil, Nat.add_zero]
      · refine Or.inl ⟨0, Nat.zero_le _, ?_⟩
        simp only [truncGo, if_neg hfit, if_neg hrem, List.take_zero]

/-- Complete characterisation of the truncation loop.  The cut position
`k` is pinned down: every accumulated prefix up to `k` fits within the
budget, and either all chunks fit (`k` is the whole length) or the `k`-th
chunk overflows the running total; in the latter case the loop output is
forced in both directions — when more than 100 characters of budget
remain a truncated copy of that chunk IS kept, and otherwise the output
stops at the prefix. -/
lemma truncGo_full (maxLength : Nat) :
    ∀ (chunks : List RetrievalChunk) (t : Nat),
      ∃ k, k ≤ chunks.length ∧
        (∀ j, j < k → t + sumLen (chunks.take (j + 1)) ≤ maxLength) ∧
        ((k = chunks.length ∧ truncGo maxLength chunks t = chunks) ∨
          (∃ chunk, chunks.get? k = some chunk ∧
            maxLength < t + sumLen (chunks.take k) + chunk.content.length ∧
            (100 < maxLength - (t + sumLen (chunks.take k)) →
              truncGo maxLength chunks t =
                chunks.take k ++
                  [{ chunk with content :=
                      chunk.content.take (maxLength - (t + sumLen (chunks.take k))) ++
                        ellipsis }]) ∧
            (maxLength - (t + sumLen (chunks.take k)) ≤ 100 →
              truncGo maxLength chunks t = chunks.take k))) := by
  intro chunks
  induction chunks with
  | nil =>
    intro t
    exact ⟨0, Nat.le_refl 0, fun j hj => absurd hj (Nat.not_lt_zero j), Or.inl ⟨rfl, rfl⟩⟩
  | cons chunk rest ih =>
    intro t
    by_cases hfit : t + chunk.content.length ≤ maxLength
    · rcases ih (t + chunk.content.length) with ⟨k, hk, hfits, hcase⟩
      refine ⟨k + 1, Nat.succ_le_succ hk, ?_, ?_⟩
      · intro j hj
        cases j with
        | zero => simpa [sumLen] using hfit
        | succ j' =>
          have hj' : j' < k := Nat.lt_of_succ_lt_succ hj
          have h := hfits j' hj'
          simpa [List.take_succ_cons, sumLen_cons, Nat.add_assoc] using h
      · rcases hcase with ⟨hkl, heq⟩ | ⟨c, hget, hover, htrunc, hdrop⟩
        · left
          constructor
          · simp [hkl]
          · simp only [truncGo, if_pos hfit, heq]
        · right
          refine ⟨c, by simpa using hget, ?_, ?_, ?_⟩
          · simp only [List.take_succ_cons, sumLen_cons]
            omega
          · intro h100
            have h100' :
                100 < maxLength - ((t + chunk.content.length) + sumLen (rest.take k)) := by
              simp only [List.take_succ_cons, sumLen_cons] at h100
              omega
            have hres := htrunc h100'
            simp only [truncGo, if_pos hfit, hres, List.take_succ_cons, List.cons_append,
              sumLen_cons]
            have harith : t + chunk.content.length + sumLen (rest.take k) =
                t + (chunk.content.length + sumLen (rest.take k)) := by omega
            rw [harith]
          · intro h100
            have h100' :
                maxLength - ((t + chunk.content.length) + sumLen (rest.take k)) ≤ 100 := by
              simp only [List.take_succ_cons, sumLen_cons] at h100
              omega
            have hres := hdrop h100'
            simp only [truncGo, if_pos hfit, hres, List.take_succ_cons]
    · refine ⟨0, Nat.zero_le _, fun j hj => absurd hj (Nat.not_lt_zero j), Or.inr ?_⟩
      refine ⟨chunk, rfl, by simp; omega, ?_, ?_⟩
      · intro h100
        simp only [List.take_zero, sumLen_nil, Nat.add_zero] at h100 ⊢
        simp only [truncGo, if_neg hfit, if_pos h100, List.nil_append]
      · intro h100
        simp only [List.take_zero, sumLen_nil, Nat.add_zero] at h100 ⊢
        have hno : ¬ (100 < maxLength - t) := by omega
        simp only [truncGo, if_neg hfit, if_neg hno]

/-- Membership in the insertion step. -/
lemma mem_insertBySimilarityDesc {x a : RetrievalChunk} :
    ∀ {l : List RetrievalChunk}, x ∈ insertBySimilarityDesc a l ↔ x = a ∨ x ∈ l := by
  intro l
  induction l with
  | nil => simp [insertBySimilarityDesc]
  | cons b rest ih =>
    by_cases h : b.similarity ≤ a.similarity
    · simp [insertBySimilarityDesc, if_pos h]
    · simp only [insertBySimilarityDesc, if_neg h, List.mem_cons, ih]
      tauto

/-- Membership in the stable descending sort. -/
lemma mem_sortBySimilarityDesc {x : RetrievalChunk} :
    ∀ {l : List RetrievalChunk}, x ∈ sortBySimilarityDesc l ↔ x ∈ l := by
  intro l
  induction l with
  | nil => simp [sortBySimilarityDesc]
  | cons a rest ih =>
    simp only [sortBySimilarityDesc, mem_insertBySimilarityDesc, ih, List.mem_cons]

/-- Every chunk produced by the truncation loop is either an input chunk
or a truncated copy of an input chunk, sharing its similarity. -/
lemma truncGo_mem (maxLength : Nat) :
    ∀ (chunks : List RetrievalChunk) (t : Nat) (x : RetrievalChunk),
      x ∈ truncGo maxLength chunks t →
      x ∈ chunks ∨ ∃ y ∈ chunks, x.similarity = y.similarity := by
  intro chunks
  induction chunks with
  | nil => intro t x hx; simp [truncGo] at hx
  | cons chunk rest ih =>
    intro t x hx
    by_cases hfit : t + chunk.content.length ≤ maxLength
    · simp only [truncGo, if_pos hfit, List.mem_cons] at hx
      rcases hx with rfl | hx
      · exact Or.inl (List.mem_cons_self _ _)
      · rcases ih (t + chunk.content.length) x hx with h | ⟨y, hy, hs⟩
        · exact Or.inl (List.mem_cons_of_mem _ h)
        · exact Or.inr ⟨y, List.mem_cons_of_mem _ hy, hs⟩
    · by_cases hrem : 100 < maxLength - t
      · simp only [truncGo, if_neg hfit, if_pos hrem, List.mem_singleton] at hx
        subst hx
        exact Or.inr ⟨chunk, List.mem_cons_self _ _, rfl⟩
      · simp [truncGo, if_neg hfit, if_neg hrem] at hx

/-- The insertion step preserves descending pairwise order. -/
lemma pairwise_insertBySimilarityDesc {a : RetrievalChunk} :
    ∀ {l : List RetrievalChunk},
      List.Pairwise (fun x y => y.similarity ≤ x.similarity) l →
      List.Pairwise (fun x y => y.similarity ≤ x.similarity) (insertBySimilarityDesc a l) := by
  intro l
  induction l with
  | nil => intro _; simp [insertBySimilarityDesc]
  | cons b rest ih =>
    intro hl
    rcases List.pairwise_cons.mp hl with ⟨hb, hrest⟩
    by_cases h : b.similarity ≤ a.similarity
    · simp only [insertBySimilarityDesc, if_pos h, List.pairwise_cons]
      refine ⟨?_, hb, hrest⟩
      intro y hy
      rcases List.mem_cons.mp hy with rfl | hy
      · exact h
      · exact le_trans (hb y hy) h
    · simp only [insertBySimilarityDesc, if_neg h, List.pairwise_cons]
      refine ⟨?_, ih hrest⟩
      intro y hy
      rcases mem_insertBySimilarityDesc.mp hy with rfl | hy
      · exact le_of_lt (lt_of_not_le h)
      · exact hb y hy

/-- The sort produces a descending pairwise-ordered list. -/
lemma pairwise_sortBySimilarityDesc :
    ∀ (l : List RetrievalChunk),
      List.Pairwise (fun x y => y.similarity ≤ x.similarity) (sortBySimilarityDesc l) := by
  intro l
  induction l with
  | nil => simp [sortBySimilarityDesc]
  | cons a rest ih => exact pairwise_insertBySimilarityDesc ih

/-- Stability of the insertion step, expressed through filtering on a
similarity value: inserting `a` puts it in front of every element of
equal similarity. -/
lemma filter_insertBySimilarityDesc (a : RetrievalChunk) (q : ℚ) :
    ∀ (l : List RetrievalChunk),
      (insertBySimilarityDesc a l).filter (fun c => decide (c.similarity = q)) =
        if a.similarity = q then
          a :: l.filter (fun c => decide (c.similarity = q))
        else l.filter (fun c => decide (c.similarity = q)) := by
  intro l
  induction l with
  | nil =>
    by_cases ha : a.similarity = q <;>
      simp [insertBySimilarityDesc, List.filter, ha]
  | cons b rest ih =>
    by_cases h : b.similarity ≤ a.similarity
    · simp only [insertBySimilarityDesc]
      rw [if_pos h]
      by_cases ha : a.similarity = q <;> simp [List.filter_cons, ha]
    · have hba : a.similarity < b.similarity := lt_of_not_le h
      simp only [insertBySimilarityDesc]
      rw [if_neg h]
      by_cases ha : a.similarity = q
      · have hb : b.similarity ≠ q := by
          intro hbq
          exact absurd (ha ▸ hbq ▸ hba) (lt_irrefl _)
        simp [List.filter_cons, hb, ih, ha]
      · by_cases hb : b.similarity = q <;> simp [List.filter_cons, hb, ih, ha]

/-- Stability of the sort: for every similarity value, the elements with
that similarity appear in the sorted output exactly in input order. -/
lemma filter_sortBySimilarityDesc (q : ℚ) :
    ∀ (l : List RetrievalChunk),
      (sortBySimilarityDesc l).filter (fun c => decide (c.similarity = q)) =
        l.filter (fun c => decide (c.similarity = q)) := by
  intro l
  induction l with
  | nil => simp [sortBySimilarityDesc]
  | cons a rest ih =>
    by_cases ha : a.similarity = q <;>
      simp [sortBySimilarityDesc, filter_insertBySimilarityDesc, ha, ih, List.filter]

/-- Whitespace as stripped by `String.prototype.trim` (the common
whitespace characters occurring in chat text). -/
def isJsSpace (c : Char) : Bool :=
  c = ' ' || c = '\t' || c = '\n' || c = '\r' || c = '\x0b' || c = '\x0c'

/-- `text.trim()`: strip leading and trailing whitespace. -/
def trimChars (s : List Char) : List Char :=
  ((s.dropWhile isJsSpace).reverse.dropWhile isJsSpace).reverse

/-- `parts.join('\n')`. -/
def joinNL : List (List Char) → List Char
  | [] => []
  | [p] => p
  | p :: rest => p ++ '\n' :: joinNL rest

/-- `x.toFixed(1)` of a JavaScript number, on rationals: the integer `n`
with `n / 10` closest to the value, ties towards the larger `n`, printed
with one decimal digit. -/
def toFixed1 (q : ℚ) : List Char :=
  let n : Int := (q * 10 + 1 / 2).floor
  let m : Nat := n.natAbs
  (if n < 0 then ['-'] else []) ++ (toString (m / 10)).toList ++ '.' :: (toString (m % 10)).toList

/-- The per-chunk reference header of `buildRAGContext`. -/
def chunkHeader (index : Nat) (similarity : ℚ) : List Char :=
  "[参考资料 ".toList ++ (toString index).toList ++ "] (相似度: ".toList ++
    toFixed1 (similarity * 100) ++ "%)".toList

/-- `buildRAGContext(chunks)` of `RAGContextInjector.ts`: preamble, one
numbered block per chunk (header, trimmed content, blank line), the
optional rewritten-query note, and the closing instruction, joined by
newlines. -/
def buildRAGContext (cfg : RAGContextConfig) (chunks : List RetrievalChunk) : List Char :=
  joinNL
    ([ "以下是相关的背景信息，请基于这些信息回答用户的问题：".toList, [] ] ++
      (chunks.enum.flatMap fun p =>
        [chunkHeader (p.1 + 1) p.2.similarity, trimChars p.2.content, []]) ++
      (match cfg.rewriteQuery with
        | some rq =>
          [ "用户查询经过重写优化：".toList,
            "原始查询 -> 优化查询: ".toList ++ rq, [] ]
        | none => []) ++
      [ "请基于以上参考资料回答用户的问题。如果参考资料中没有相关信息，请明确说明。".toList ])

/-- `injectRAGContext(originalContent, ragContext)`:
`[originalContent, '', ragContext].join('\n').trim()`. -/
def injectRAGContext (originalContent ragContext : List Char) : List Char :=
  trimChars (originalContent ++ '\n' :: '\n' :: ragContext)

/-- The backwards scan of `findLastUserMessage`, carrying the index of
the head of the remaining list.  The source returns a live reference into
the cloned message array and assigns through it; this is modelled by
returning the index together with the message and writing back with
`List.set`. -/
def findLastUserAux : List ChatMessage → Nat → Option (Nat × ChatMessage)
  | [], _ => none
  | m :: rest, i =>
    match findLastUserAux rest (i + 1) with
    | some found => some found
    | none => if m.role = "user" then some (i, m) else none

/-- `findLastUserMessage(messages)` of `RAGContextInjector.ts`. -/
def findLastUserMessage (messages : List ChatMessage) : Option (Nat × ChatMessage) :=
  findLastUserAux messages 0

/-- `Math.min(...xs)`: partial on the empty sequence. -/
def listMin : List ℚ → Option ℚ
  | [] => none
  | x :: xs => some (xs.foldl min x)

/-- `Math.max(...xs)`: partial on the empty sequence. -/
def listMax : List ℚ → Option ℚ
  | [] => none
  | x :: xs => some (xs.foldl max x)

/-- `xs.reduce((sum, x) => sum + x, 0) / xs.length`: division by zero on
the empty sequence, hence partial. -/
def listAvg : List ℚ → Option ℚ
  | [] => none
  | x :: xs => some ((x :: xs).sum / ((x :: xs).length : ℚ))

/-- `RAGContextInjector.doProcess`: clone, no-op on an empty chunk
configuration, budget the chunks, no-op when nothing survives or no user
message exists, otherwise append the formatted block to the last user
message and record the statistics in `metadata.ragContext`. -/
def ragDoProcess (cfg : RAGContextConfig) (context : PipelineContext) : PipelineContext :=
  let clonedContext := cloneContext context
  if cfg.chunks.isEmpty then markAsExecuted clonedContext
  else
    let processedChunks := processRetrievalChunks cfg cfg.chunks
    if processedChunks.isEmpty then markAsExecuted clonedContext
    else
      match findLastUserMessage clonedContext.messages with
      | none => markAsExecuted clonedContext
      | some (i, lastUserMessage) =>
        let ragContext := buildRAGContext cfg processedChunks
        let updatedContent := injectRAGContext lastUserMessage.content ragContext
        markAsExecuted
          { clonedContext with
            messages :=
              clonedContext.messages.set i { lastUserMessage with content := updatedContent },
            metadata :=
              { clonedContext.metadata with
                ragContext := some
                  { chunksCount := processedChunks.length,
                    totalContextLength := ragContext.length,
                    queryId := cfg.queryId,
                    rewriteQuery := cfg.rewriteQuery,
                    minSimilarity := listMin (processedChunks.map fun c => c.similarity),
                    maxSimilarity := listMax (processedChunks.map fun c => c.similarity),
                    avgSimilarity := listAvg (processedChunks.map fun c => c.similarity) } } }

/-- Concrete chunk used for the C1 counterexample: 200 characters. -/
def ragCexChunk : RetrievalChunk :=
  { content := List.replicate 200 'a', similarity := 1 }

/-- Concrete configuration used for the C1 counterexample. -/
def ragCexConfig : RAGContextConfig :=
  { chunks := [ragCexChunk], maxContextLength := some 150 }

set_option maxRecDepth 4000 in
/-- C1 is refuted: with a single 200-character chunk and
`maxContextLength = 150`, the truncated chunk is sliced to 150
characters and then the 3-character ellipsis is appended, so the total
content length of the budgeted output is 153 > 150. -/
theorem rag_total_length_claim_cex :
    ragCexConfig.maxContextLength = some 150 ∧
    ¬ sumLen (processRetrievalChunks ragCexConfig ragCexConfig.chunks) ≤ 150 :=
  ⟨rfl, by decide⟩

/-- C1 (amended): for every chunk list and every supplied nonzero
`maxContextLength` (zero is falsy in the source guard and disables
truncation), the total content length of the budgeted output, ellipsis
included, is at most `maxContextLength + 3` — the appended `'...'` may
exceed the budget by up to 3 characters. -/
theorem rag_total_length_bound (cfg : RAGContextConfig) (chunks : List RetrievalChunk)
    (m : Nat) (hm : cfg.maxContextLength = some m) (hm0 : m ≠ 0) :
    sumLen (processRetrievalChunks cfg chunks) ≤ m + 3 := by
  have h0 : ∀ l : List RetrievalChunk, sumLen (truncateByLength l m) ≤ m + 3 := by
    intro l
    have h := truncGo_sum_le m l 0 (Nat.zero_le m)
    simpa [truncateByLength] using h
  simp only [processRetrievalChunks, lengthLimit, hm]
  rw [if_neg hm0]
  exact h0 _

/-- Witness for `rag_total_length_bound` at the concrete counterexample
input: the total is within 150 + 3. -/
theorem rag_total_length_bound_witness :
    sumLen (processRetrievalChunks ragCexConfig ragCexConfig.chunks) ≤ 150 + 3 :=
  rag_total_length_bound ragCexConfig ragCexConfig.chunks 150 rfl (by decide)

/-- C2: truncation accumulates content lengths in order: there is a cut
position `k` such that every accumulated prefix up to `k` fits the
budget, and either every chunk fits (the output is the whole list) or the
`k`-th chunk is the first that does not fit whole, and then the output is
forced in both directions — if more than 100 characters of budget remain
a truncated copy of that chunk IS kept after the prefix, and otherwise
the output is exactly the prefix; later chunks are never included.  Any
output chunk is an input chunk or has content length at least 100, and
for three chunks of content length 80 with budget 150 the output is
exactly the first chunk. -/
theorem rag_truncate_order_and_floor (chunks : List RetrievalChunk) (maxLength : Nat) :
    (∃ k, k ≤ chunks.length ∧
      (∀ j, j < k → sumLen (chunks.take (j + 1)) ≤ maxLength) ∧
      ((k = chunks.length ∧ truncateByLength chunks maxLength = chunks) ∨
        (∃ chunk, chunks.get? k = some chunk ∧
          maxLength < sumLen (chunks.take k) + chunk.content.length ∧
          (100 < maxLength - sumLen (chunks.take k) →
            truncateByLength chunks maxLength =
              chunks.take k ++
                [{ chunk with
                    content := chunk.content.take (maxLength - sumLen (chunks.take k)) ++
                      ellipsis }]) ∧
          (maxLength - sumLen (chunks.take k) ≤ 100 →
            truncateByLength chunks maxLength = chunks.take k)))) ∧
    (∀ chunk ∈ truncateByLength chunks maxLength,
        chunk ∈ chunks ∨ 100 ≤ chunk.content.length) ∧
    (∀ c1 c2 c3 : RetrievalChunk,
        c1.content.length = 80 → c2.content.length = 80 → c3.content.length = 80 →
        truncateByLength [c1, c2, c3] 150 = [c1]) := by
  have hchars := truncGo_chars maxLength chunks 0
  simp only [Nat.zero_add] at hchars
  refine ⟨?_, ?_, ?_⟩
  · rcases truncGo_full maxLength chunks 0 with ⟨k, hk, hfits, hcase⟩
    refine ⟨k, hk, ?_, ?_⟩
    · intro j hj
      have h := hfits j hj
      simpa using h
    · rcases hcase with ⟨hkl, heq⟩ | ⟨c, hget, hover, htrunc, hdrop⟩
      · exact Or.inl ⟨hkl, by simpa [truncateByLength] using heq⟩
      · refine Or.inr ⟨c, hget, by simpa using hover, ?_, ?_⟩
        · intro h100
          have h := htrunc (by simpa using h100)
          simpa [truncateByLength] using h
        · intro h100
          have h := hdrop (by simpa using h100)
          simpa [truncateByLength] using h
  · intro chunk hmem
    rw [truncateByLength] at hmem
    rcases hchars with ⟨k, _, heq⟩ | ⟨k, c, _, h1, h2, heq⟩
    · rw [heq] at hmem
      exact Or.inl (List.take_subset _ _ hmem)
    · rw [heq] at hmem
      rcases List.mem_append.mp hmem with h | h
      · exact Or.inl (List.take_subset _ _ h)
      · rcases List.mem_singleton.mp h with rfl
        right
        simp only [List.length_append, List.length_take]
        have h3 : ellipsis.length = 3 := rfl
        omega
  · intro c1 c2 c3 h1 h2 h3
    simp [truncateByLength, truncGo, h1, h2]

/-- Concrete 80-character chunks for the C2 witness. -/
def chunk80a : RetrievalChunk := { content := List.replicate 80 'a', similarity := 1 }

/-- Second 80-character chunk for the C2 witness. -/
def chunk80b : RetrievalChunk := { content := List.replicate 80 'b', similarity := 1 }

/-- Third 80-character chunk for the C2 witness. -/
def chunk80c : RetrievalChunk := { content := List.replicate 80 'c', similarity := 1 }

set_option maxRecDepth 4000 in
/-- Witness for `rag_truncate_order_and_floor`: chunks of lengths
`[80, 80, 80]` with budget 150 yield exactly the first chunk, and the
sufficient direction is exercised — a single 200-character chunk with
budget 150 yields the truncated copy (sliced to 150 plus the ellipsis). -/
theorem rag_truncate_order_and_floor_witness :
    truncateByLength [chunk80a, chunk80b, chunk80c] 150 = [chunk80a] ∧
    truncateByLength [ragCexChunk] 150 =
      [{ ragCexChunk with content := ragCexChunk.content.take 150 ++ ellipsis }] := by
  constructor
  · exact (rag_truncate_order_and_floor [chunk80a, chunk80b, chunk80c] 150).2.2
      chunk80a chunk80b chunk80c (by decide) (by decide) (by decide)
  · rcases (rag_truncate_order_and_floor [ragCexChunk] 150).1 with ⟨k, hk, hfits, hcase⟩
    rcases hcase with ⟨hkl, heq⟩ | ⟨c, hget, hover, htrunc, hdrop⟩
    · exfalso
      have hkpos : 0 < k := by
        simp only [List.length_singleton] at hkl
        omega
      have h := hfits 0 hkpos
      exact absurd h (by decide)
    · have hk0 : k = 0 := by
        cases k with
        | zero => rfl
        | succ n => simp at hget
      subst hk0
      have hc : c = ragCexChunk := by
        simp only [List.get?] at hget
        exact (Option.some.injEq _ _).mp hget.symm
      subst hc
      have h := htrunc (by decide)
      simpa using h

/-- Members of the length-limiting step come from the input list, up to a
content truncation that keeps the similarity. -/
lemma mem_lengthLimit (cfg : RAGContextConfig) (l : List RetrievalChunk) (x : RetrievalChunk)
    (hx : x ∈ lengthLimit cfg l) : x ∈ l ∨ ∃ y ∈ l, x.similarity = y.similarity := by
  cases hcm : cfg.maxContextLength with
  | none =>
    simp only [lengthLimit, hcm] at hx
    exact Or.inl hx
  | some m =>
    simp only [lengthLimit, hcm] at hx
    by_cases h0 : m = 0
    · rw [if_pos h0] at hx
      exact Or.inl hx
    · rw [if_neg h0, truncateByLength] at hx
      exact truncGo_mem m l 0 x hx

/-- C3: when a `minSimilarity` threshold is supplied, every chunk in the
output of the budgeting step (filter, sort, truncate — a truncated copy
keeps its original similarity) satisfies `minSimilarity ≤ similarity`. -/
theorem rag_min_similarity_preserved (cfg : RAGContextConfig) (chunks : List RetrievalChunk)
    (ms : ℚ) (hms : cfg.minSimilarity = some ms) :
    ∀ chunk ∈ processRetrievalChunks cfg chunks, ms ≤ chunk.similarity := by
  intro chunk hmem
  have hfil : ∀ x ∈ filterBySimilarity cfg.minSimilarity chunks, ms ≤ x.similarity := by
    intro x hx
    rw [hms] at hx
    simp only [filterBySimilarity] at hx
    rcases List.mem_filter.mp hx with ⟨_, hdec⟩
    exact of_decide_eq_true hdec
  have hbase :
      ∀ x ∈ (if cfg.sortBySimilarity = some false then
          filterBySimilarity cfg.minSimilarity chunks
        else sortBySimilarityDesc (filterBySimilarity cfg.minSimilarity chunks)),
        ms ≤ x.similarity := by
    intro x hx
    by_cases hs : cfg.sortBySimilarity = some false
    · rw [if_pos hs] at hx
      exact hfil x hx
    · rw [if_neg hs] at hx
      exact hfil x (mem_sortBySimilarityDesc.mp hx)
  simp only [processRetrievalChunks] at hmem
  rcases mem_lengthLimit cfg _ chunk hmem with h | ⟨y, hy, hsim⟩
  · exact hbase chunk h
  · rw [hsim]
    exact hbase y hy

/-- High-similarity chunk for the C3 witness. -/
def simHiChunk : RetrievalChunk := { content := ['a'], similarity := 2 }

/-- Low-similarity chunk for the C3 witness. -/
def simLoChunk : RetrievalChunk := { content := ['b'], similarity := 0 }

/-- Configuration with a similarity threshold for the C3 witness. -/
def simCfg : RAGContextConfig :=
  { chunks := [simLoChunk, simHiChunk], minSimilarity := some 1 }

/-- Witness for `rag_min_similarity_preserved`: the surviving chunk of
the concrete run meets the threshold 1. -/
theorem rag_min_similarity_preserved_witness : (1 : ℚ) ≤ simHiChunk.similarity :=
  rag_min_similarity_preserved simCfg simCfg.chunks 1 rfl simHiChunk (by decide)

/-- C6: when sorting is enabled (`sortBySimilarity` not explicitly
`false`), the budgeting step truncates exactly the descending-sorted
filtered list; that list is pairwise descending in similarity, and for
every similarity value the chunks carrying it keep their relative input
order (stability). -/
theorem rag_sort_desc_stable (cfg : RAGContextConfig) (chunks : List RetrievalChunk) (q : ℚ)
    (hs : cfg.sortBySimilarity ≠ some false) :
    processRetrievalChunks cfg chunks =
        lengthLimit cfg (sortBySimilarityDesc (filterBySimilarity cfg.minSimilarity chunks)) ∧
    List.Pairwise (fun a b => b.similarity ≤ a.similarity)
        (sortBySimilarityDesc (filterBySimilarity cfg.minSimilarity chunks)) ∧
    (sortBySimilarityDesc (filterBySimilarity cfg.minSimilarity chunks)).filter
        (fun c => decide (c.similarity = q)) =
      (filterBySimilarity cfg.minSimilarity chunks).filter
        (fun c => decide (c.similarity = q)) := by
  refine ⟨?_, pairwise_sortBySimilarityDesc _, filter_sortBySimilarityDesc q _⟩
  simp only [processRetrievalChunks, if_neg hs]

/-- Tied chunk (first) for the C6 witness. -/
def tieA : RetrievalChunk := { content := ['a'], similarity := 1 }

/-- Higher-similarity chunk for the C6 witness. -/
def tieB : RetrievalChunk := { content := ['b'], similarity := 2 }

/-- Tied chunk (second) for the C6 witness. -/
def tieC : RetrievalChunk := { content := ['c'], similarity := 1 }

/-- Configuration without an explicit sort flag for the C6 witness. -/
def tieCfg : RAGContextConfig := { chunks := [tieA, tieB, tieC] }

/-- Witness for `rag_sort_desc_stable` on a concrete list with a
similarity tie, checked at the tied value 1. -/
theorem rag_sort_desc_stable_witness :
    processRetrievalChunks tieCfg tieCfg.chunks =
        lengthLimit tieCfg (sortBySimilarityDesc (filterBySimilarity tieCfg.minSimilarity tieCfg.chunks)) ∧
    List.Pairwise (fun a b => b.similarity ≤ a.similarity)
        (sortBySimilarityDesc (filterBySimilarity tieCfg.minSimilarity tieCfg.chunks)) ∧
    (sortBySimilarityDesc (filterBySimilarity tieCfg.minSimilarity tieCfg.chunks)).filter
        (fun c => decide (c.similarity = 1)) =
      (filterBySimilarity tieCfg.minSimilarity tieCfg.chunks).filter
        (fun c => decide (c.similarity = 1)) :=
  rag_sort_desc_stable tieCfg tieCfg.chunks 1 (by decide)

/-- When no message has role `user`, the backwards scan finds nothing. -/
lemma findLastUserAux_none :
    ∀ (messages : List ChatMessage), (∀ m ∈ messages, m.role ≠ "user") →
      ∀ i, findLastUserAux messages i = none := by
  intro messages
  induction messages with
  | nil => intro _ i; rfl
  | cons m rest ih =>
    intro h i
    have hr := ih (fun x hx => h x (List.mem_cons_of_mem _ hx)) (i + 1)
    simp only [findLastUserAux, hr]
    rw [if_neg (h m (List.mem_cons_self _ _))]

/-- C4: when the message list contains no `user` message, the RAG stage
with a non-empty chunk configuration leaves every message (hence every
content) and the whole metadata unchanged, and only marks the context
executed. -/
theorem rag_no_user_message_noop (cfg : RAGContextConfig) (context : PipelineContext)
    (_hchunks : cfg.chunks ≠ [])
    (huser : ∀ m ∈ context.messages, m.role ≠ "user") :
    (ragDoProcess cfg context).messages = context.messages ∧
    (ragDoProcess cfg context).metadata = context.metadata ∧
    (ragDoProcess cfg context).executed = true := by
  have hfind : findLastUserMessage context.messages = none :=
    findLastUserAux_none context.messages huser 0
  simp only [ragDoProcess, cloneContext, hfind, ite_self]
  by_cases hemp : cfg.chunks.isEmpty = true <;>
    simp [hemp, markAsExecuted, ite_self]

/-- Context with no user message for the C4 witness. -/
def noUserCtx : PipelineContext :=
  { messages :=
      [ { id := 0, role := "system", content := ['s'] },
        { id := 1, role := "assistant", content := ['h', 'i'] } ],
    metadata := {} }

/-- Non-empty chunk configuration for the C4 witness. -/
def noUserCfg : RAGContextConfig := { chunks := [simHiChunk] }

/-- Witness for `rag_no_user_message_noop` at a concrete context whose
roles are `system` and `assistant` only. -/
theorem rag_no_user_message_noop_witness :
    (ragDoProcess noUserCfg noUserCtx).messages = noUserCtx.messages ∧
    (ragDoProcess noUserCfg noUserCtx).metadata = noUserCtx.metadata ∧
    (ragDoProcess noUserCfg noUserCtx).executed = true :=
  rag_no_user_message_noop noUserCfg noUserCtx (by decide) (by decide)

/-- A nonempty list has a `Math.min`. -/
lemma listMin_isSome {l : List ℚ} (h : l ≠ []) : (listMin l).isSome = true := by
  cases l with
  | nil => exact absurd rfl h
  | cons x xs => rfl

/-- A nonempty list has a `Math.max`. -/
lemma listMax_isSome {l : List ℚ} (h : l ≠ []) : (listMax l).isSome = true := by
  cases l with
  | nil => exact absurd rfl h
  | cons x xs => rfl

/-- A nonempty list has an average. -/
lemma listAvg_isSome {l : List ℚ} (h : l ≠ []) : (listAvg l).isSome = true := by
  cases l with
  | nil => exact absurd rfl h
  | cons x xs => rfl

/-- C9: if budgeting leaves no chunks the RAG stage takes the no-op
branch (messages and metadata unchanged), and in every run the
`ragContext` statistics entry is either not written at all or is written
for a non-empty chunk set with all three similarity statistics defined —
the empty-sequence error branch of min/max/average is unreachable. -/
theorem rag_stats_guarded (cfg : RAGContextConfig) (context : PipelineContext) :
    (processRetrievalChunks cfg cfg.chunks = [] →
      (ragDoProcess cfg context).messages = context.messages ∧
      (ragDoProcess cfg context).metadata = context.metadata) ∧
    ((ragDoProcess cfg context).metadata.ragContext = context.metadata.ragContext ∨
      ∃ entry, (ragDoProcess cfg context).metadata.ragContext = some entry ∧
        0 < entry.chunksCount ∧ entry.minSimilarity.isSome = true ∧
        entry.maxSimilarity.isSome = true ∧ entry.avgSimilarity.isSome = true) := by
  constructor
  · intro hproc
    have hpe : (processRetrievalChunks cfg cfg.chunks).isEmpty = true := by
      rw [hproc]; rfl
    simp [ragDoProcess, cloneContext, hpe, markAsExecuted]
  · by_cases hemp : cfg.chunks.isEmpty = true
    · left
      simp [ragDoProcess, cloneContext, hemp, markAsExecuted]
    · by_cases hpemp : (processRetrievalChunks cfg cfg.chunks).isEmpty = true
      · left
        simp [ragDoProcess, cloneContext, hemp, hpemp, markAsExecuted]
      · cases hfind : findLastUserMessage context.messages with
        | none =>
          left
          simp [ragDoProcess, cloneContext, hemp, hpemp, hfind, markAsExecuted]
        | some found =>
          right
          obtain ⟨i, lastMsg⟩ := found
          have hne : processRetrievalChunks cfg cfg.chunks ≠ [] := by
            intro hq
            rw [hq] at hpemp
            exact hpemp rfl
          have hmapne : (processRetrievalChunks cfg cfg.chunks).map
              (fun c => c.similarity) ≠ [] := by
            simpa using hne
          have hrag : (ragDoProcess cfg context).metadata.ragContext = some
              { chunksCount := (processRetrievalChunks cfg cfg.chunks).length,
                totalContextLength :=
                  (buildRAGContext cfg (processRetrievalChunks cfg cfg.chunks)).length,
                queryId := cfg.queryId,
                rewriteQuery := cfg.rewriteQuery,
                minSimilarity :=
                  listMin ((processRetrievalChunks cfg cfg.chunks).map fun c => c.similarity),
                maxSimilarity :=
                  listMax ((processRetrievalChunks cfg cfg.chunks).map fun c => c.similarity),
                avgSimilarity :=
                  listAvg ((processRetrievalChunks cfg cfg.chunks).map fun c => c.similarity) } := by
            simp [ragDoProcess, cloneContext, hemp, hpemp, hfind, markAsExecuted]
          exact ⟨_, hrag, List.length_pos.mpr hne, listMin_isSome hmapne,
            listMax_isSome hmapne, listAvg_isSome hmapne⟩

/-- Empty chunk configuration for the C9 witness. -/
def emptyCfg : RAGContextConfig := { chunks := [] }

/-- Context with one user message for the C9 witness. -/
def userCtx : PipelineContext :=
  { messages := [ { id := 1, role := "user", content := ['h', 'i'] } ], metadata := {} }

/-- Witness for `rag_stats_guarded`: with an empty chunk configuration
the concrete run changes neither messages nor metadata. -/
theorem rag_stats_guarded_witness :
    (ragDoProcess emptyCfg userCtx).messages = userCtx.messages ∧
    (ragDoProcess emptyCfg userCtx).metadata = userCtx.metadata :=
  (rag_stats_guarded emptyCfg userCtx).1 (by decide)

/-- Boolean prefix test on character lists (explicit, proof-friendly). -/
def begWith : List Char → List Char → Bool
  | [], _ => true
  | _ :: _, [] => false
  | p :: ps, c :: cs => p == c && begWith ps cs

/-- `begWith` decides the existence of a split `s = p ++ t`. -/
lemma begWith_iff : ∀ (p s : List Char), begWith p s = true ↔ ∃ t, s = p ++ t := by
  intro p
  induction p with
  | nil => intro s; simp [begWith]
  | cons p ps ih =>
    intro s
    cases s with
    | nil => simp [begWith]
    | cons c cs =>
      simp only [begWith, Bool.and_eq_true, beq_iff_eq, ih, List.cons_append,
        List.cons.injEq]
      constructor
      · rintro ⟨rfl, t, rfl⟩
        exact ⟨t, rfl, rfl⟩
      · rintro ⟨t, rfl, rfl⟩
        exact ⟨rfl, t, rfl⟩

/-- ECMAScript line terminators, which `.` in a regular expression
without the `s` flag does not match. -/
def isLineTerminator (c : Char) : Bool :=
  c == '\n' || c == '\r' || c == ' ' || c == ' '

/-- Scanner for the middle of a lazy pattern `.+?` followed by the
closing delimiter `cls`: succeeds when the text starts with at least one
non-line-terminator character followed (after zero or more further such
characters) by `cls`. -/
def scanMid (cls : List Char) : List Char → Bool
  | [] => false
  | c :: rest => !isLineTerminator c && (begWith cls rest || scanMid cls rest)

/-- Correctness of `scanMid`: it decides the existence of a decomposition
`mid ++ cls ++ t` with `mid` nonempty and free of line terminators. -/
lemma scanMid_iff (cls : List Char) :
    ∀ s, scanMid cls s = true ↔
      ∃ mid t, s = mid ++ cls ++ t ∧ mid ≠ [] ∧
        ∀ c ∈ mid, isLineTerminator c = false := by
  intro s
  induction s with
  | nil =>
    refine iff_of_false (by simp [scanMid]) ?_
    rintro ⟨mid, t, heq, hne, _⟩
    cases mid with
    | nil => exact hne rfl
    | cons m ms => exact List.cons_ne_nil _ _ heq.symm
  | cons c rest ih =>
    simp only [scanMid, Bool.and_eq_true, Bool.or_eq_true, Bool.not_eq_true']
    constructor
    · rintro ⟨hc, hcase | hcase⟩
      · rcases (begWith_iff cls rest).mp hcase with ⟨t, rfl⟩
        refine ⟨[c], t, by simp, by simp, ?_⟩
        intro x hx
        rcases List.mem_singleton.mp hx with rfl
        exact hc
      · rcases ih.mp hcase with ⟨mid, t, rfl, hne, hmid⟩
        refine ⟨c :: mid, t, by simp, by simp, ?_⟩
        intro x hx
        rcases List.mem_cons.mp hx with rfl | hx
        · exact hc
        · exact hmid x hx
    · rintro ⟨mid, t, heq, hne, hmid⟩
      cases mid with
      | nil => exact absurd rfl hne
      | cons m ms =>
        simp only [List.cons_append, List.cons.injEq] at heq
        rcases heq with ⟨rfl, rfl⟩
        refine ⟨hmid _ (List.mem_cons_self _ _), ?_⟩
        cases ms with
        | nil =>
          left
          exact (begWith_iff cls _).mpr ⟨t, by simp⟩
        | cons m2 ms2 =>
          right
          refine ih.mpr ⟨m2 :: ms2, t, by simp, by simp, ?_⟩
          intro x hx
          exact hmid x (List.mem_cons_of_mem _ hx)

/-- Scanner for one regular-expression pattern `opn .+? cls` anywhere in
the text (the `test` of the source patterns): at each position, try to
match the opening delimiter followed by a lazy middle and the closing
delimiter. -/
def hasPat (opn cls : List Char) : List Char → Bool
  | [] => false
  | c :: rest =>
    (begWith opn (c :: rest) && scanMid cls ((c :: rest).drop opn.length)) ||
      hasPat opn cls rest

/-- A text matches pattern `opn .+? cls`: some occurrence of `opn`, a
nonempty run of non-line-terminator characters, and `cls` in order. -/
def MatchesPat (opn cls s : List Char) : Prop :=
  ∃ a mid b, s = a ++ opn ++ mid ++ cls ++ b ∧ mid ≠ [] ∧
    ∀ c ∈ mid, isLineTerminator c = false

/-- Correctness of `hasPat`: it decides `MatchesPat`. -/
lemma hasPat_iff (opn cls : List Char) :
    ∀ s, hasPat opn cls s = true ↔ MatchesPat opn cls s := by
  intro s
  induction s with
  | nil =>
    refine iff_of_false (by simp [hasPat]) ?_
    rintro ⟨a, mid, b, heq, hne, _⟩
    have : a = [] ∧ opn ++ mid ++ cls ++ b = [] := by
      simpa [List.append_eq_nil] using heq.symm
    have h2 := this.2
    simp only [List.append_assoc, List.append_eq_nil] at h2
    exact hne h2.2.1
  | cons c rest ih =>
    simp only [hasPat, Bool.or_eq_true, Bool.and_eq_true]
    constructor
    · rintro (⟨hbeg, hscan⟩ | hrec)
      · rcases (begWith_iff opn _).mp hbeg with ⟨u, hu⟩
        rw [hu, List.drop_left] at hscan
        rcases (scanMid_iff cls u).mp hscan with ⟨mid, t, rfl, hne, hmid⟩
        exact ⟨[], mid, t, by simpa using hu, hne, hmid⟩
      · rcases ih.mp hrec with ⟨a, mid, b, heq, hne, hmid⟩
        exact ⟨c :: a, mid, b, by simp [heq], hne, hmid⟩
    · rintro ⟨a, mid, b, heq, hne, hmid⟩
      cases a with
      | nil =>
        left
        simp only [List.nil_append] at heq
        constructor
        · exact (begWith_iff opn _).mpr ⟨mid ++ cls ++ b, by simpa using heq⟩
        · have hdrop : (c :: rest).drop opn.length = mid ++ cls ++ b := by
            rw [show c :: rest = opn ++ (mid ++ cls ++ b) by simpa using heq]
            exact List.drop_left _ _
          rw [hdrop]
          exact (scanMid_iff cls _).mpr ⟨mid, b, by simp, hne, hmid⟩
      | cons a0 arest =>
        right
        simp only [List.cons_append, List.cons.injEq] at heq
        rcases heq with ⟨rfl, heq⟩
        exact ih.mpr ⟨arest, mid, b, heq, hne, hmid⟩

/-- Opening delimiter of the raw interpolation pattern (two braces). -/
def interpOpen : List Char := ['\x7b', '\x7b']

/-- Closing delimiter of the raw interpolation pattern. -/
def interpClose : List Char := ['\x7d', '\x7d']

/-- Opening delimiter of the escaped interpolation pattern (three braces). -/
def escOpen : List Char := ['\x7b', '\x7b', '\x7b']

/-- Closing delimiter of the escaped interpolation pattern. -/
def escClose : List Char := ['\x7d', '\x7d', '\x7d']

/-- Opening delimiter of the evaluation pattern (brace, percent). -/
def evalOpen : List Char := ['\x7b', '%']

/-- Closing delimiter of the evaluation pattern (percent, brace). -/
def evalClose : List Char := ['%', '\x7d']

/-- `hasPlaceholders(text)` of `PlaceholderVariableInjector.ts`: does any
of the three patterns match somewhere in the text?  (The source's
falsy-string guard is subsumed: no pattern matches the empty text.) -/
def hasPlaceholders (text : List Char) : Bool :=
  hasPat interpOpen interpClose text || hasPat escOpen escClose text ||
    hasPat evalOpen evalClose text

/-- The per-message body of the placeholder stage's `map`, parameterised
by the expansion function (the compiled lodash template applied to the
variable bag; `Except.error` models a thrown exception, caught by the
source's per-message `try`).  Returns the resulting message together
with its contributions to the processed and error counters. -/
def phProcessMessage (expandFn : List Char → Except Unit (List Char))
    (message : ChatMessage) : ChatMessage × Nat × Nat :=
  if hasPlaceholders message.content then
    match expandFn message.content with
    | Except.ok processedContent =>
      ({ message with content := processedContent },
        if processedContent ≠ message.content then 1 else 0, 0)
    | Except.error _ => (message, 0, 1)
  else (message, 0, 0)

/-- `PlaceholderVariableInjector.doProcess`: clone, no-op when the
variable bag is empty, otherwise map every message through the guarded
expansion and record the counters and the available variable names. -/
def phDoProcess (vars : List (List Char × List Char))
    (expandFn : List Char → Except Unit (List Char))
    (context : PipelineContext) : PipelineContext :=
  let clonedContext := cloneContext context
  if vars.isEmpty then markAsExecuted clonedContext
  else
    let results := clonedContext.messages.map (phProcessMessage expandFn)
    markAsExecuted
      { clonedContext with
        messages := results.map (fun r => r.1),
        metadata :=
          { clonedContext.metadata with
            placeholdersProcessed := some (results.map (fun r => r.2.1)).sum,
            placeholderErrors := some (results.map (fun r => r.2.2)).sum,
            availableVariables := some (vars.map (fun v => v.1)) } }

/-- C7: a text matching none of the three placeholder patterns makes
`hasPlaceholders` return false, and the placeholder stage then leaves any
message carrying that text unchanged (contributing to neither counter),
whatever the expansion function and variable bag are. -/
theorem no_marker_expansion_noop (text : List Char)
    (h1 : ¬ MatchesPat interpOpen interpClose text)
    (h2 : ¬ MatchesPat escOpen escClose text)
    (h3 : ¬ MatchesPat evalOpen evalClose text) :
    hasPlaceholders text = false ∧
    (∀ (expandFn : List Char → Except Unit (List Char)) (message : ChatMessage),
      message.content = text → phProcessMessage expandFn message = (message, 0, 0)) ∧
    (∀ (vars : List (List Char × List Char))
        (expandFn : List Char → Except Unit (List Char))
        (context : PipelineContext) (i : Nat) (message : ChatMessage),
      context.messages.get? i = some message → message.content = text →
      (phDoProcess vars expandFn context).messages.get? i = some message) := by
  have hfalse : hasPlaceholders text = false := by
    rw [hasPlaceholders]
    have e1 : hasPat interpOpen interpClose text = false :=
      Bool.eq_false_iff.mpr fun h => h1 ((hasPat_iff _ _ text).mp h)
    have e2 : hasPat escOpen escClose text = false :=
      Bool.eq_false_iff.mpr fun h => h2 ((hasPat_iff _ _ text).mp h)
    have e3 : hasPat evalOpen evalClose text = false :=
      Bool.eq_false_iff.mpr fun h => h3 ((hasPat_iff _ _ text).mp h)
    rw [e1, e2, e3]
    rfl
  have hproc : ∀ (expandFn : List Char → Except Unit (List Char)) (message : ChatMessage),
      message.content = text → phProcessMessage expandFn message = (message, 0, 0) := by
    intro expandFn message hmsg
    rw [phProcessMessage, hmsg, hfalse]
    simp
  refine ⟨hfalse, hproc, ?_⟩
  intro vars expandFn context i message hget hmsg
  by_cases hvars : vars.isEmpty = true
  · simp only [phDoProcess, cloneContext, if_pos hvars, markAsExecuted]
    exact hget
  · simp only [phDoProcess, cloneContext, if_neg hvars, markAsExecuted]
    rw [List.get?_eq_getElem?, List.getElem?_map, List.getElem?_map,
      ← List.get?_eq_getElem?, hget]
    simp [hproc expandFn message hmsg]

/-- Witness for `no_marker_expansion_noop` at the concrete text
`hello`: no pattern matches, and a one-message context is returned
unchanged by the stage. -/
theorem no_marker_expansion_noop_witness :
    (phDoProcess [(['x'], ['y'])] (fun _ => Except.error ())
        { messages := [ { id := 5, role := "user", content := ['h', 'e', 'l', 'l', 'o'] } ],
          metadata := {} }).messages.get? 0 =
      some { id := 5, role := "user", content := ['h', 'e', 'l', 'l', 'o'] } :=
  (no_marker_expansion_noop ['h', 'e', 'l', 'l', 'o']
    (fun h => absurd ((hasPat_iff interpOpen interpClose ['h', 'e', 'l', 'l', 'o']).mpr h)
      (by decide))
    (fun h => absurd ((hasPat_iff escOpen escClose ['h', 'e', 'l', 'l', 'o']).mpr h)
      (by decide))
    (fun h => absurd ((hasPat_iff evalOpen evalClose ['h', 'e', 'l', 'l', 'o']).mpr h)
      (by decide))).2.2
    [(['x'], ['y'])] (fun _ => Except.error ())
    { messages := [ { id := 5, role := "user", content := ['h', 'e', 'l', 'l', 'o'] } ],
      metadata := {} }
    0 _ rfl rfl

/-- With a non-empty variable bag, message `i` of the stage output is the
guarded expansion of message `i` of the input. -/
lemma phDoProcess_messages_get (vars : List (List Char × List Char))
    (expandFn : List Char → Except Unit (List Char)) (context : PipelineContext)
    (i : Nat) (hvars : vars.isEmpty = false) :
    (phDoProcess vars expandFn context).messages.get? i =
      (context.messages.get? i).map (fun m => (phProcessMessage expandFn m).1) := by
  simp only [phDoProcess, cloneContext, hvars, Bool.false_eq_true, if_false, markAsExecuted]
  rw [List.get?_eq_getElem?, List.getElem?_map, List.getElem?_map, ← List.get?_eq_getElem?,
    Option.map_map]
  rfl

/-- With a non-empty variable bag, the error counter written by the stage
is the sum of the per-message error contributions. -/
lemma phDoProcess_errors (vars : List (List Char × List Char))
    (expandFn : List Char → Except Unit (List Char)) (context : PipelineContext)
    (hvars : vars.isEmpty = false) :
    (phDoProcess vars expandFn context).metadata.placeholderErrors =
      some ((context.messages.map (fun m => (phProcessMessage expandFn m).2.2)).sum) := by
  simp only [phDoProcess, cloneContext, hvars, Bool.false_eq_true, if_false, markAsExecuted]
  rw [List.map_map]
  rfl

/-- C5: if expansion throws on one message (with placeholders present),
that message contributes `(unchanged, 0 processed, 1 error)`, its content
in the output equals the original, every other message is still processed
normally, and the error counter is at least 1.  The stage itself is a
total function: the per-message exception never propagates. -/
theorem placeholder_error_isolated
    (vars : List (List Char × List Char))
    (expandFn : List Char → Except Unit (List Char))
    (context : PipelineContext) (i : Nat) (message : ChatMessage)
    (hvars : vars ≠ [])
    (hget : context.messages.get? i = some message)
    (hph : hasPlaceholders message.content = true)
    (herr : expandFn message.content = Except.error ()) :
    phProcessMessage expandFn message = (message, 0, 1) ∧
    (phDoProcess vars expandFn context).messages.get? i = some message ∧
    (∀ j mj, j ≠ i → context.messages.get? j = some mj →
      (phDoProcess vars expandFn context).messages.get? j =
        some (phProcessMessage expandFn mj).1) ∧
    (∃ e, (phDoProcess vars expandFn context).metadata.placeholderErrors = some e ∧
      1 ≤ e) := by
  have hvars' : vars.isEmpty = false := by
    cases vars with
    | nil => exact absurd rfl hvars
    | cons v vs => rfl
  have hmsg : phProcessMessage expandFn message = (message, 0, 1) := by
    simp [phProcessMessage, hph, herr]
  refine ⟨hmsg, ?_, ?_, ?_⟩
  · rw [phDoProcess_messages_get vars expandFn context i hvars', hget]
    simp [hmsg]
  · intro j mj _hji hgj
    rw [phDoProcess_messages_get vars expandFn context j hvars', hgj]
    rfl
  · rw [phDoProcess_errors vars expandFn context hvars']
    refine ⟨_, rfl, ?_⟩
    have hsome :
        (context.messages.map (fun m => (phProcessMessage expandFn m).2.2)).get? i =
          some 1 := by
      rw [List.get?_eq_getElem?, List.getElem?_map, ← List.get?_eq_getElem?, hget]
      simp [hmsg]
    have hmem : (1 : Nat) ∈
        context.messages.map (fun m => (phProcessMessage expandFn m).2.2) :=
      List.get?_mem hsome
    exact List.single_le_sum (fun x _ => Nat.zero_le x) 1 hmem

/-- Failing message for the C5 witness: its content is the interpolation
pattern around `x`. -/
def failMsg : ChatMessage :=
  { id := 0, role := "user", content := ['\x7b', '\x7b', 'x', '\x7d', '\x7d'] }

/-- Successfully expanded message for the C5 witness. -/
def okMsg : ChatMessage :=
  { id := 1, role := "user", content := ['\x7b', '\x7b', 'y', '\x7d', '\x7d'] }

/-- Expansion function for the C5 witness: throws exactly on the failing
message's text and appends `!` otherwise. -/
def witnessExpand (s : List Char) : Except Unit (List Char) :=
  if s = failMsg.content then Except.error () else Except.ok (s ++ ['!'])

/-- Context holding the failing and the succeeding message, for the C5
witness. -/
def errCtx : PipelineContext :=
  { messages := [failMsg, okMsg], metadata := {} }

/-- Witness for `placeholder_error_isolated` at a concrete two-message
context whose first message fails to expand. -/
theorem placeholder_error_isolated_witness :
    phProcessMessage witnessExpand failMsg = (failMsg, 0, 1) ∧
    (phDoProcess [(['k'], ['v'])] witnessExpand errCtx).messages.get? 0 = some failMsg ∧
    (∀ j mj, j ≠ 0 → errCtx.messages.get? j = some mj →
      (phDoProcess [(['k'], ['v'])] witnessExpand errCtx).messages.get? j =
        some (phProcessMessage witnessExpand mj).1) ∧
    (∃ e, (phDoProcess [(['k'], ['v'])] witnessExpand errCtx).metadata.placeholderErrors =
      some e ∧ 1 ≤ e) :=
  placeholder_error_isolated [(['k'], ['v'])] witnessExpand errCtx 0 failMsg
    (by decide) rfl (by decide) rfl

/-- C10: with an empty variable bag the placeholder stage returns the
cloned context only marked executed: every message unchanged, and none of
`placeholdersProcessed`, `placeholderErrors`, `availableVariables`
written — the whole metadata is untouched rather than recording zero
counts. -/
theorem placeholder_empty_bag_noop
    (expandFn : List Char → Except Unit (List Char)) (context : PipelineContext) :
    (phDoProcess [] expandFn context).messages = context.messages ∧
    (phDoProcess [] expandFn context).metadata.placeholdersProcessed =
      context.metadata.placeholdersProcessed ∧
    (phDoProcess [] expandFn context).metadata.placeholderErrors =
      context.metadata.placeholderErrors ∧
    (phDoProcess [] expandFn context).metadata.availableVariables =
      context.metadata.availableVariables ∧
    (phDoProcess [] expandFn context).metadata = context.metadata ∧
    (phDoProcess [] expandFn context).executed = true := by
  simp [phDoProcess, cloneContext, markAsExecuted, List.isEmpty]

/-- Modelled from the spec: the markup-escaping applied by the escaped
interpolation class (`_.escape` of lodash, not part of this repository):
the five HTML-significant characters become entities. -/
def escapeHtmlChar (c : Char) : List Char :=
  if c = '&' then "&amp;".toList
  else if c = '<' then "&lt;".toList
  else if c = '>' then "&gt;".toList
  else if c = '"' then "&quot;".toList
  else if c.toNat = 39 then "&#39;".toList
  else [c]

/-- Markup-escape a whole text. -/
def escapeHtml (s : List Char) : List Char :=
  s.flatMap escapeHtmlChar

/-- Modelled from the spec: evaluation of a captured expression against
the variable bag (lodash compiles the capture as code; for the plain
variable references the spec describes, this is a lookup of the trimmed
name, and an absent variable yields the empty string). -/
def lookupVar (vars : List (List Char × List Char)) (key : List Char) : List Char :=
  match vars.find? (fun p => p.1 == key) with
  | some p => p.2
  | none => []

/-- Lazy middle of a pattern: the shortest nonempty run of
non-line-terminator characters followed by the closing delimiter `cls`;
returns the middle and the rest after `cls`. -/
def takeMid (cls : List Char) : List Char → Option (List Char × List Char)
  | [] => none
  | c :: rest =>
    if isLineTerminator c then none
    else if begWith cls rest then some ([c], rest.drop cls.length)
    else
      match takeMid cls rest with
      | some (mid, r) => some (c :: mid, r)
      | none => none

/-- Try to match the pattern `opn .+? cls` at the start of the text. -/
def tryPat (opn cls s : List Char) : Option (List Char × List Char) :=
  if begWith opn s then takeMid cls (s.drop opn.length) else none

/-- Modelled from the spec: the scanning loop of the lodash `template`
engine (an external library) configured with the three source patterns.
The combined regular expression tries the alternatives in the order
escape (`\x7b\x7b\x7b…\x7d\x7d\x7d`), interpolate (`\x7b\x7b…\x7d\x7d`),
evaluate (`\x7b%…%\x7d`) at the leftmost matching position, with lazy
middles.  The evaluation class executes arbitrary code and is modelled as
a thrown error (`Except.error`).  The first argument is structural fuel,
one unit per consumed character. -/
def expandScan (vars : List (List Char × List Char)) :
    Nat → List Char → Except Unit (List Char)
  | _, [] => Except.ok []
  | 0, _ :: _ => Except.error ()
  | fuel + 1, c :: rest =>
    match tryPat escOpen escClose (c :: rest) with
    | some (mid, r) =>
      match expandScan vars fuel r with
      | Except.ok tail => Except.ok (escapeHtml (lookupVar vars (trimChars mid)) ++ tail)
      | Except.error e => Except.error e
    | none =>
      match tryPat interpOpen interpClose (c :: rest) with
      | some (mid, r) =>
        match expandScan vars fuel r with
        | Except.ok tail => Except.ok (lookupVar vars (trimChars mid) ++ tail)
        | Except.error e => Except.error e
      | none =>
        match tryPat evalOpen evalClose (c :: rest) with
        | some _ => Except.error ()
        | none =>
          match expandScan vars fuel rest with
          | Except.ok tail => Except.ok (c :: tail)
          | Except.error e => Except.error e

/-- Modelled from the spec: `template(text, …)(vars)` — expansion of a
text against the variable bag with the three configured patterns.  The
fuel `text.length` suffices because every step consumes at least one
character. -/
def expandTemplate (vars : List (List Char × List Char)) (s : List Char) :
    Except Unit (List Char) :=
  expandScan vars s.length s

/-- Does `pat` occur contiguously inside `s`? -/
def containsSeg (pat : List Char) : List Char → Bool
  | [] => pat.isEmpty
  | c :: rest => begWith pat (c :: rest) || containsSeg pat rest

/-- Variable bag binding `html` to markup for the C8 check. -/
def htmlVars : List (List Char × List Char) :=
  [("html".toList, "<b>x</b>".toList)]

/-- Input containing the triple-brace (escaped) form. -/
def escInput : List Char := "x: \x7b\x7b\x7bhtml\x7d\x7d\x7d".toList

/-- The same input with the double-brace (raw) form. -/
def rawInput : List Char := "x: \x7b\x7bhtml\x7d\x7d".toList

/-- C8: with `html` bound to `<b>x</b>`, the triple-brace form expands to
the markup-escaped entity form while the double-brace form inserts the
markup verbatim — the escaped pattern class takes precedence where both
could match. -/
theorem escape_precedence_concrete :
    expandTemplate htmlVars escInput = Except.ok "x: &lt;b&gt;x&lt;/b&gt;".toList ∧
    containsSeg "&lt;b&gt;x&lt;/b&gt;".toList "x: &lt;b&gt;x&lt;/b&gt;".toList = true ∧
    expandTemplate htmlVars rawInput = Except.ok "x: <b>x</b>".toList ∧
    containsSeg "<b>x</b>".toList "x: <b>x</b>".toList = true :=
  ⟨rfl, by decide, rfl, by decide⟩
